import Mathlib

/-!
Shallow embedding of `ringbufferof.go` (package `ringbuffer`,
repo fufuok/ringbuffer): a generic, single-threaded ring buffer with
read/write cursors over a flat backing store, automatic growth,
a bounded-discard / overwrite policy and in-place truncation.

Modelling conventions:
* Go slices become `List T`; the zero value of `T` (what `var t T` and
  `make([]T, n)` produce) is `(default : T)` from an `Inhabited T` instance.
* Go `int` fields that are provably non-negative in every reachable state
  (cursors, sizes, the discard counter) are `Nat`; public parameters that
  Go takes as `int` are `Int`, and the one place where the source itself
  relies on signed arithmetic (`Truncate`'s wrapped branch, `x := r.w - n`)
  is computed in `Int` exactly as the source does.
* The `onDiscards func(T)` callback is modelled by a Boolean `hasOnDiscards`
  (is a callback installed?) plus, on `Write`, an explicit log of the values
  the callback was invoked with during that call; `Overwrite` never invokes
  the callback in the source, so its embedding returns no log.
-/

namespace RingBuffer

/-- Go `error` as produced by this package: the single `ErrIsEmpty` value. -/
inductive GoErr : Type where
  | ErrIsEmpty : GoErr
deriving Repr, DecidableEq

/-- `const minBufferSize = 2` (from the package, quoted in the repo README). -/
def minBufferSize : Nat := 2

/-- The state of `RingBufferOf[T]` (src/ringbufferof.go lines 11-20). -/
structure RingBufferOf (T : Type) where
  buf : List T
  initialSize : Nat
  size : Nat
  maxSize : Nat
  discards : Nat
  r : Nat
  w : Nat
  hasOnDiscards : Bool
deriving Repr, DecidableEq

/-- `NewOf` (lines 30-46): clamp `initialSize` up to the floor, keep the
first variadic max-size argument when it is at least the floor. -/
def NewOf (T : Type) [Inhabited T] (initialSize : Int)
    (maxBufferSize : List Int) : RingBufferOf T :=
  let isize : Nat :=
    if initialSize < (minBufferSize : Int) then minBufferSize else initialSize.toNat
  let maxSize : Nat :=
    match maxBufferSize with
    | m :: _ => if (minBufferSize : Int) ≤ m then m.toNat else 0
    | [] => 0
  { buf := List.replicate isize (default : T)
    initialSize := isize
    size := isize
    maxSize := maxSize
    discards := 0
    r := 0
    w := 0
    hasOnDiscards := false }

/-- `NewUnboundedOf` (lines 22-24): `NewOf[T](initialSize, 0)`. -/
def NewUnboundedOf (T : Type) [Inhabited T] (initialSize : Int) : RingBufferOf T :=
  NewOf T initialSize [0]

/-- `NewFixedOf` (lines 26-28): `NewOf[T](initialSize, initialSize)`. -/
def NewFixedOf (T : Type) [Inhabited T] (initialSize : Int) : RingBufferOf T :=
  NewOf T initialSize [initialSize]

namespace RingBufferOf

variable {T : Type}

/-- `Len` (lines 249-259). -/
def Len (s : RingBufferOf T) : Nat :=
  if s.r = s.w then 0
  else if s.w > s.r then s.w - s.r
  else s.size - s.r + s.w

/-- `IsEmpty` (lines 232-234). -/
def IsEmpty (s : RingBufferOf T) : Bool :=
  s.r = s.w

/-- `Capacity` (lines 237-239). -/
def Capacity (s : RingBufferOf T) : Nat :=
  s.size

/-- `MaxSize` (lines 241-243). -/
def MaxSize (s : RingBufferOf T) : Nat :=
  s.maxSize

/-- `Discards` (lines 245-247). -/
def Discards (s : RingBufferOf T) : Nat :=
  s.discards

/-- `Read` (lines 48-61): returns `(value, error)` and the updated receiver. -/
def Read [Inhabited T] (s : RingBufferOf T) : T × Option GoErr × RingBufferOf T :=
  if s.r = s.w then ((default : T), some GoErr.ErrIsEmpty, s)
  else
    let v := s.buf.getD s.r (default : T)
    let r1 := s.r + 1
    let r2 := if r1 = s.size then 0 else r1
    (v, none, { s with r := r2 })

/-- `RRead` (lines 63-75): erases the last written element and returns it. -/
def RRead [Inhabited T] (s : RingBufferOf T) : T × Option GoErr × RingBufferOf T :=
  if s.r = s.w then ((default : T), some GoErr.ErrIsEmpty, s)
  else if s.w = 0 then
    (s.buf.getD (s.size - 1) (default : T), none, { s with w := s.size - 1 })
  else
    (s.buf.getD (s.w - 1) (default : T), none, { s with w := s.w - 1 })

/-- `Peek` (lines 77-83): front element without removal; no mutation. -/
def Peek [Inhabited T] (s : RingBufferOf T) : T × Option GoErr :=
  if s.r = s.w then ((default : T), some GoErr.ErrIsEmpty)
  else (s.buf.getD s.r (default : T), none)

/-- `RPeek` (lines 85-95): latest written element without removal. -/
def RPeek [Inhabited T] (s : RingBufferOf T) : T × Option GoErr :=
  if s.r = s.w then ((default : T), some GoErr.ErrIsEmpty)
  else if s.w = 0 then (s.buf.getD (s.size - 1) (default : T), none)
  else (s.buf.getD (s.w - 1) (default : T), none)

/-- `PeekAll` (lines 97-110): all logical elements oldest-first.
`r.buf[a:b]` is `(drop a).take (b - a)`, `r.buf[a:]` is `drop a`,
`r.buf[:b]` is `take b`. -/
def PeekAll (s : RingBufferOf T) : List T :=
  if s.r = s.w then []
  else if s.w > s.r then (s.buf.drop s.r).take (s.w - s.r)
  else s.buf.drop s.r ++ s.buf.take s.w

/-- `RPeekN` (lines 112-123): the last `n` logical elements. -/
def RPeekN (s : RingBufferOf T) (n : Int) : List T :=
  if n ≤ 0 then []
  else
    let buf := s.PeekAll
    let l := buf.length
    if n ≤ (l : Int) then buf.drop (l - n.toNat) else buf

/-- `LPeekN` (lines 125-135): the first `n` logical elements. -/
def LPeekN (s : RingBufferOf T) (n : Int) : List T :=
  if n ≤ 0 then []
  else
    let buf := s.PeekAll
    if n ≤ (buf.length : Int) then buf.take n.toNat else buf

/-- `grow` (lines 179-196): double below 1024, else grow by 25%; linearize
the two spans into the front of a fresh zero-filled store. -/
def grow [Inhabited T] (s : RingBufferOf T) : RingBufferOf T :=
  let size := if s.size < 1024 then s.size * 2 else s.size + s.size / 4
  let buf := s.buf.drop s.r ++ s.buf.take s.r
    ++ List.replicate (size - s.size) (default : T)
  { s with r := 0, w := s.size, size := size, buf := buf }

/-- `Write` (lines 137-156). The second component is the list of values the
`onDiscards` callback was invoked with during this call (empty or `[v]`). -/
def Write [Inhabited T] (s : RingBufferOf T) (v : T) : RingBufferOf T × List T :=
  if 0 < s.maxSize ∧ s.maxSize ≤ s.Len then
    ({ s with discards := s.discards + 1 },
      if s.hasOnDiscards then [v] else [])
  else
    let buf1 := s.buf.set s.w v
    let w1 := s.w + 1
    let w2 := if w1 = s.size then 0 else w1
    let s1 := { s with buf := buf1, w := w2 }
    (if w2 = s.r then s1.grow else s1, [])

/-- `Overwrite` (lines 159-177): at the bound, advance the read cursor with
wraparound (silently dropping the oldest element, no discard counting, no
callback), then append as `Write` does. -/
def Overwrite [Inhabited T] (s : RingBufferOf T) (v : T) : RingBufferOf T :=
  let s0 :=
    if 0 < s.maxSize ∧ s.maxSize ≤ s.Len then
      let r1 := s.r + 1
      { s with r := if r1 = s.size then 0 else r1 }
    else s
  let buf1 := s0.buf.set s0.w v
  let w1 := s0.w + 1
  let w2 := if w1 = s0.size then 0 else w1
  let s1 := { s0 with buf := buf1, w := w2 }
  if w2 = s0.r then s1.grow else s1

/-- `Reset` (lines 261-266). -/
def Reset [Inhabited T] (s : RingBufferOf T) : RingBufferOf T :=
  { s with
    r := 0
    w := 0
    size := s.initialSize
    buf := List.replicate s.initialSize (default : T) }

/-- `Truncate` (lines 198-230): keep only the most recent `n` elements.
`r.buf = make([]T, r.size); copy(r.buf, data)` is `data` padded with zero
values to length `r.size`; the in-place branches are verbatim, with the
source's signed computation `x := r.w - n` done in `Int`. -/
def Truncate [Inhabited T] (s : RingBufferOf T) (n : Int) : RingBufferOf T :=
  if n ≤ 0 then s.Reset
  else if (s.Len : Int) ≤ n then s
  else if n * 2 < (s.size : Int) then
    let data := s.RPeekN n
    let size1 := n.toNat + 1
    { s with
      r := 0
      w := n.toNat
      size := size1
      buf := data ++ List.replicate (size1 - data.length) (default : T) }
  else if s.w > s.r then
    { s with r := s.w - s.r - n.toNat }
  else
    let x : Int := (s.w : Int) - n
    if 0 ≤ x then { s with r := x.toNat }
    else { s with r := ((s.size : Int) + x).toNat }

/-- `SetMaxSize` (lines 268-279): returns the updated state and the Go
return value `r.maxSize`. -/
def SetMaxSize [Inhabited T] (s : RingBufferOf T) (n : Int) :
    RingBufferOf T × Nat :=
  if n = 0 then
    ({ s with maxSize := 0 }, 0)
  else if (minBufferSize : Int) ≤ n then
    let s1 := Truncate { s with maxSize := n.toNat } n
    (s1, s1.maxSize)
  else (s, s.maxSize)

/-- `SetOnDiscards` (lines 281-285): a nil argument is ignored. -/
def SetOnDiscards (s : RingBufferOf T) (fnPresent : Bool) : RingBufferOf T :=
  if fnPresent then { s with hasOnDiscards := true } else s

end RingBufferOf

/-- One state-mutating public operation of the API. -/
inductive Op (T : Type) : Type where
  | write (v : T)
  | overwrite (v : T)
  | read
  | rread
  | truncate (n : Int)
  | reset
  | setMaxSize (n : Int)
  | setOnDiscards (fnPresent : Bool)

/-- Apply one operation to a state, dropping return values. -/
def applyOp [Inhabited T] (s : RingBuffer.RingBufferOf T) :
    Op T → RingBuffer.RingBufferOf T
  | Op.write v => (s.Write v).1
  | Op.overwrite v => s.Overwrite v
  | Op.read => (s.Read).2.2
  | Op.rread => (s.RRead).2.2
  | Op.truncate n => s.Truncate n
  | Op.reset => s.Reset
  | Op.setMaxSize n => (s.SetMaxSize n).1
  | Op.setOnDiscards b => s.SetOnDiscards b

/-- Run a list of operations from a state. -/
def runOps [Inhabited T] (s : RingBuffer.RingBufferOf T) (ops : List (Op T)) :
    RingBuffer.RingBufferOf T :=
  ops.foldl applyOp s

/-- A state is reachable when some constructor call followed by some
sequence of public operations produces it. -/
def Reachable [Inhabited T] (s : RingBuffer.RingBufferOf T) : Prop :=
  ∃ (initialSize : Int) (maxArgs : List Int) (ops : List (Op T)),
    s = runOps (RingBuffer.NewOf T initialSize maxArgs) ops

/-- Write each value of `vs` in order; collect the callback log. -/
def writeAll [Inhabited T] :
    RingBuffer.RingBufferOf T → List T → RingBuffer.RingBufferOf T × List T
  | s, [] => (s, [])
  | s, v :: vs =>
    let p := s.Write v
    let q := writeAll p.1 vs
    (q.1, p.2 ++ q.2)

/-- Overwrite each value of `vs` in order. -/
def overwriteAll [Inhabited T] :
    RingBuffer.RingBufferOf T → List T → RingBuffer.RingBufferOf T
  | s, [] => s
  | s, v :: vs => overwriteAll (s.Overwrite v) vs

/-- Repeatedly `Read` (at most `fuel` times), stopping at the first
`ErrIsEmpty`; returns the values read in order. -/
def readAll [Inhabited T] : Nat → RingBuffer.RingBufferOf T → List T
  | 0, _ => []
  | fuel + 1, s =>
    if (s.Read).2.1 = some GoErr.ErrIsEmpty then []
    else (s.Read).1 :: readAll fuel (s.Read).2.2

/-- The representation invariant: the backing store has length `size`,
both cursors are in range, and sizes respect the minimum floor. -/
def WF (s : RingBuffer.RingBufferOf T) : Prop :=
  s.buf.length = s.size ∧ s.r < s.size ∧ s.w < s.size ∧
    RingBuffer.minBufferSize ≤ s.initialSize ∧
    RingBuffer.minBufferSize ≤ s.size

instance [DecidableEq T] (s : RingBuffer.RingBufferOf T) : Decidable (WF s) := by
  unfold WF; infer_instance

/-- The last `n` elements of a list (all of it when it is shorter). -/
def lastN (n : Nat) (l : List T) : List T :=
  l.drop (l.length - n)

namespace RingBufferOf

variable {T : Type}

theorem take_set_succ (l : List T) (k : Nat) (v : T) (h : k < l.length) :
    (l.set k v).take (k + 1) = l.take k ++ [v] := by
  rw [List.set_eq_take_cons_drop v h]
  have hlen : (l.take k).length = k := List.length_take_of_le (Nat.le_of_lt h)
  calc ((l.take k ++ v :: l.drop (k + 1)).take (k + 1))
      = (l.take k ++ v :: l.drop (k + 1)).take ((l.take k).length + 1) := by rw [hlen]
    _ = l.take k ++ (v :: l.drop (k + 1)).take 1 := List.take_append 1
    _ = l.take k ++ [v] := by simp

theorem set_last (l : List T) (k : Nat) (v : T) (h : k + 1 = l.length) :
    l.set k v = l.take k ++ [v] := by
  rw [List.set_eq_take_cons_drop v (by omega)]
  rw [List.drop_of_length_le (by omega)]

theorem lastN_cons (n : Nat) (a : T) (l : List T) (h : n ≤ l.length) :
    lastN n (a :: l) = lastN n l := by
  unfold lastN
  rw [List.length_cons, show l.length + 1 - n = (l.length - n) + 1 by omega,
    List.drop_succ_cons]

theorem lastN_of_length_le (n : Nat) (l : List T) (h : l.length ≤ n) :
    lastN n l = l := by
  unfold lastN
  rw [show l.length - n = 0 by omega, List.drop_zero]

theorem len_lt_size (s : RingBufferOf T) (hwf : WF s) : s.Len < s.size := by
  obtain ⟨hb, hr, hw, hi, hs⟩ := hwf
  unfold Len
  split
  · omega
  · split <;> omega

theorem len_zero_iff (s : RingBufferOf T) (hwf : WF s) :
    s.Len = 0 ↔ s.r = s.w := by
  obtain ⟨hb, hr, hw, hi, hs⟩ := hwf
  unfold Len
  split
  · simp [*]
  · split <;> omega

theorem peekAll_length (s : RingBufferOf T) (hwf : WF s) :
    s.PeekAll.length = s.Len := by
  obtain ⟨hb, hr, hw, hi, hs⟩ := hwf
  unfold PeekAll Len
  split
  · simp
  · split <;> simp <;> omega

theorem peekAll_eq_nil_iff (s : RingBufferOf T) (hwf : WF s) :
    s.PeekAll = [] ↔ s.r = s.w := by
  rw [← List.length_eq_zero, peekAll_length s hwf, len_zero_iff s hwf]

theorem size_lt_grow_size (s : RingBufferOf T) [Inhabited T] (hs : 0 < s.size) :
    s.size < s.grow.size := by
  show s.size < if s.size < 1024 then s.size * 2 else s.size + s.size / 4
  split
  · omega
  · have : 4 ≤ s.size / 4 := Nat.le_div_iff_mul_le (by omega) |>.2 (by omega)
    omega

theorem grow_fields (s : RingBufferOf T) [Inhabited T] :
    s.grow.r = 0 ∧ s.grow.w = s.size ∧
    s.grow.maxSize = s.maxSize ∧ s.grow.discards = s.discards ∧
    s.grow.initialSize = s.initialSize ∧
    s.grow.hasOnDiscards = s.hasOnDiscards := by
  unfold grow
  exact ⟨rfl, rfl, rfl, rfl, rfl, rfl⟩

theorem wf_grow (s : RingBufferOf T) [Inhabited T] (hwf : WF s) : WF s.grow := by
  obtain ⟨hb, hr, hw, hi, hs⟩ := hwf
  have hlt := size_lt_grow_size s (by omega)
  refine ⟨?_, ?_, ?_, hi, ?_⟩
  · show (s.buf.drop s.r ++ s.buf.take s.r
      ++ List.replicate (s.grow.size - s.size) (default : T)).length = s.grow.size
    simp only [List.length_append, List.length_drop, List.length_take,
      List.length_replicate, hb]
    omega
  · show 0 < s.grow.size
    omega
  · show s.size < s.grow.size
    exact hlt
  · show RingBuffer.minBufferSize ≤ s.grow.size
    unfold RingBuffer.minBufferSize at hs ⊢
    omega

theorem grow_peekAll (s : RingBufferOf T) [Inhabited T] (hwf : WF s) :
    s.grow.PeekAll = s.buf.drop s.r ++ s.buf.take s.r := by
  obtain ⟨hb, hr, hw, hi, hs⟩ := hwf
  have hlt := size_lt_grow_size s (by omega)
  show PeekAll { s with r := 0, w := s.size, size := s.grow.size, buf := s.buf.drop s.r ++ s.buf.take s.r ++ List.replicate (s.grow.size - s.size) (default : T) } = _
  unfold PeekAll
  have h0 : ¬((0 : Nat) = s.size) := by omega
  simp only [h0, if_false, show s.size > 0 by omega, if_true]
  rw [Nat.sub_zero, List.drop_zero,
    List.take_left' (by
      simp only [List.length_append, List.length_drop, List.length_take, hb]
      omega)]

theorem peekAll_r_le_w (s : RingBufferOf T) (h : s.r ≤ s.w) :
    s.PeekAll = (s.buf.drop s.r).take (s.w - s.r) := by
  unfold PeekAll
  rcases Nat.lt_or_ge s.r s.w with hlt | hge
  · rw [if_neg (by omega), if_pos (by omega)]
  · have heq : s.r = s.w := by omega
    rw [if_pos heq, heq, Nat.sub_self, List.take_zero]

theorem peekAll_w_lt_r (s : RingBufferOf T) (h : s.w < s.r) :
    s.PeekAll = s.buf.drop s.r ++ s.buf.take s.w := by
  unfold PeekAll
  rw [if_neg (by omega), if_neg (by omega)]

theorem overwrite_eq_write [Inhabited T] (s : RingBufferOf T) (v : T)
    (hnd : ¬(0 < s.maxSize ∧ s.maxSize ≤ s.Len)) :
    s.Overwrite v = (s.Write v).1 := by
  unfold Overwrite Write
  rw [if_neg hnd, if_neg hnd]

theorem write_eq [Inhabited T] (s : RingBufferOf T) (v : T)
    (hnd : ¬(0 < s.maxSize ∧ s.maxSize ≤ s.Len)) :
    s.Write v = (if (if s.w + 1 = s.size then 0 else s.w + 1) = s.r then ({ s with buf := s.buf.set s.w v, w := if s.w + 1 = s.size then 0 else s.w + 1 } : RingBufferOf T).grow else { s with buf := s.buf.set s.w v, w := if s.w + 1 = s.size then 0 else s.w + 1 }, []) := by
  unfold Write
  rw [if_neg hnd]

theorem write_append [Inhabited T] (s : RingBufferOf T) (v : T) (hwf : WF s)
    (hnd : ¬(0 < s.maxSize ∧ s.maxSize ≤ s.Len)) :
    (s.Write v).2 = [] ∧
    (s.Write v).1.PeekAll = s.PeekAll ++ [v] ∧
    WF (s.Write v).1 ∧
    (s.Write v).1.discards = s.discards ∧
    (s.Write v).1.maxSize = s.maxSize ∧
    (s.Write v).1.initialSize = s.initialSize ∧
    (s.Write v).1.hasOnDiscards = s.hasOnDiscards ∧
    s.size ≤ (s.Write v).1.size := by
  obtain ⟨hb, hr, hw, hi, hs⟩ := hwf
  rw [write_eq s v hnd]
  by_cases hwrap : s.w + 1 = s.size
  · simp only [if_pos hwrap]
    have hw' : s.w = s.size - 1 := by omega
    by_cases hcol : (0 : Nat) = s.r
    · simp only [if_pos hcol]
      have wfX : WF ({ s with buf := s.buf.set s.w v, w := 0 } : RingBufferOf T) :=
        ⟨by simpa using hb, hr, by show 0 < s.size; omega, hi, hs⟩
      refine ⟨by trivial, ?_, wf_grow _ wfX, by trivial, by trivial, by trivial, by trivial,
        Nat.le_of_lt (size_lt_grow_size _ (by show 0 < s.size; omega))⟩
      show PeekAll (RingBufferOf.grow { s with buf := s.buf.set s.w v, w := 0 }) = _
      rw [grow_peekAll _ wfX]
      show (s.buf.set s.w v).drop s.r ++ (s.buf.set s.w v).take s.r = _
      rw [← hcol]
      simp only [List.drop_zero, List.take_zero, List.append_nil]
      rw [set_last _ _ _ (by omega), peekAll_r_le_w s (by omega), ← hcol]
      simp only [List.drop_zero, Nat.sub_zero]
    · simp only [if_neg hcol]
      refine ⟨by trivial, ?_, ⟨by simpa using hb, hr, by show 0 < s.size; omega, hi, hs⟩,
        by trivial, by trivial, by trivial, by trivial, by trivial⟩
      show PeekAll { s with buf := s.buf.set s.w v, w := 0 } = _
      rw [peekAll_w_lt_r _ (by show (0 : Nat) < s.r; omega)]
      show (s.buf.set s.w v).drop s.r ++ (s.buf.set s.w v).take 0 = _
      rw [List.take_zero, List.append_nil, List.drop_set, if_neg (by omega),
        set_last _ _ _ (by simp [hb]; omega), peekAll_r_le_w s (by omega)]
  · simp only [if_neg hwrap]
    have hw1 : s.w + 1 < s.size := by omega
    by_cases hcol : s.w + 1 = s.r
    · simp only [if_pos hcol]
      have wfX : WF ({ s with buf := s.buf.set s.w v, w := s.w + 1 } : RingBufferOf T) :=
        ⟨by simpa using hb, hr, hw1, hi, hs⟩
      refine ⟨by trivial, ?_, wf_grow _ wfX, by trivial, by trivial, by trivial, by trivial,
        Nat.le_of_lt (size_lt_grow_size _ (by show 0 < s.size; omega))⟩
      show PeekAll (RingBufferOf.grow { s with buf := s.buf.set s.w v, w := s.w + 1 }) = _
      rw [grow_peekAll _ wfX]
      show (s.buf.set s.w v).drop s.r ++ (s.buf.set s.w v).take s.r = _
      rw [peekAll_w_lt_r s (by omega), ← hcol,
        List.drop_set, if_pos (Nat.lt_succ_self _),
        take_set_succ _ _ _ (by omega), List.append_assoc]
    · simp only [if_neg hcol]
      refine ⟨by trivial, ?_, ⟨by simpa using hb, hr, hw1, hi, hs⟩,
        by trivial, by trivial, by trivial, by trivial, by trivial⟩
      rcases Nat.lt_or_ge s.w s.r with hord | hord
      · have hlt : s.w + 1 < s.r := by omega
        rw [peekAll_w_lt_r ({ s with buf := s.buf.set s.w v, w := s.w + 1 } : RingBufferOf T) hlt]
        show (s.buf.set s.w v).drop s.r ++ (s.buf.set s.w v).take (s.w + 1) = _
        rw [List.drop_set, if_pos (by omega), take_set_succ _ _ _ (by omega),
          peekAll_w_lt_r s hord, List.append_assoc]
      · rw [peekAll_r_le_w ({ s with buf := s.buf.set s.w v, w := s.w + 1 } : RingBufferOf T) (by show s.r ≤ s.w + 1; omega)]
        show ((s.buf.set s.w v).drop s.r).take (s.w + 1 - s.r) = _
        rw [List.drop_set, if_neg (by omega),
          show s.w + 1 - s.r = (s.w - s.r) + 1 by omega,
          take_set_succ _ _ _ (by simp [hb]; omega),
          peekAll_r_le_w s hord]

theorem read_eq [Inhabited T] (s : RingBufferOf T) (h : s.r ≠ s.w) :
    s.Read = (s.buf.getD s.r (default : T), none, { s with r := if s.r + 1 = s.size then 0 else s.r + 1 }) := by
  unfold Read
  rw [if_neg h]

theorem read_pop [Inhabited T] (s : RingBufferOf T) (hwf : WF s) (hne : s.r ≠ s.w) :
    (s.Read).2.1 = none ∧
    (s.Read).2.2 = { s with r := if s.r + 1 = s.size then 0 else s.r + 1 } ∧
    WF (s.Read).2.2 ∧
    s.PeekAll = (s.Read).1 :: (s.Read).2.2.PeekAll := by
  obtain ⟨hb, hr, hw, hi, hs⟩ := hwf
  rw [read_eq s hne]
  have hget : s.buf.getD s.r (default : T) = s.buf.get ⟨s.r, by omega⟩ := by
    rw [List.getD_eq_getElem?_getD, List.getElem?_eq_getElem (by omega)]
    simp [List.get_eq_getElem]
  by_cases hcase : s.r + 1 = s.size
  · simp only [if_pos hcase]
    have hwlt : s.w < s.r := by omega
    refine ⟨by trivial, by trivial, ⟨hb, by show 0 < s.size; omega, hw, hi, hs⟩, ?_⟩
    rw [peekAll_w_lt_r s hwlt,
      peekAll_r_le_w ({ s with r := 0 } : RingBufferOf T) (by show 0 ≤ s.w; omega)]
    show _ = _ :: (s.buf.drop 0).take (s.w - 0)
    rw [List.drop_zero, Nat.sub_zero, hget,
      List.drop_eq_getElem_cons (by omega), List.drop_of_length_le (by omega)]
    simp [List.get_eq_getElem]
  · simp only [if_neg hcase]
    have hr1 : s.r + 1 < s.size := by omega
    refine ⟨by trivial, by trivial, ⟨hb, hr1, hw, hi, hs⟩, ?_⟩
    rcases Nat.lt_or_ge s.r s.w with hord | hord
    · rw [peekAll_r_le_w s (by omega),
        peekAll_r_le_w ({ s with r := s.r + 1 } : RingBufferOf T) (by show s.r + 1 ≤ s.w; omega)]
      show _ = _ :: (s.buf.drop (s.r + 1)).take (s.w - (s.r + 1))
      rw [hget, List.drop_eq_getElem_cons (by omega),
        show s.w - s.r = (s.w - (s.r + 1)) + 1 by omega, List.take_succ_cons]
      simp [List.get_eq_getElem]
    · have hwlt : s.w < s.r := by omega
      rw [peekAll_w_lt_r s hwlt,
        peekAll_w_lt_r ({ s with r := s.r + 1 } : RingBufferOf T) (by show s.w < s.r + 1; omega)]
      show _ = _ :: (s.buf.drop (s.r + 1) ++ s.buf.take s.w)
      rw [hget, List.drop_eq_getElem_cons (by omega), List.cons_append]
      simp [List.get_eq_getElem]

theorem read_eq_empty [Inhabited T] (s : RingBufferOf T) (h : s.r = s.w) :
    s.Read = ((default : T), some GoErr.ErrIsEmpty, s) := by
  unfold Read
  rw [if_pos h]

theorem readAll_succ [Inhabited T] (n : Nat) (s : RingBufferOf T) :
    readAll (n + 1) s =
      if (s.Read).2.1 = some GoErr.ErrIsEmpty then []
      else (s.Read).1 :: readAll n (s.Read).2.2 := by
  rfl

theorem readAll_succ_empty [Inhabited T] (n : Nat) (s : RingBufferOf T)
    (h : s.r = s.w) : readAll (n + 1) s = [] := by
  rw [readAll_succ, read_eq_empty s h, if_pos rfl]

theorem readAll_succ_pop [Inhabited T] (n : Nat) (s : RingBufferOf T)
    (h : s.r ≠ s.w) :
    readAll (n + 1) s = (s.Read).1 :: readAll n (s.Read).2.2 := by
  rw [readAll_succ, read_eq s h]
  rw [if_neg (by simp)]

theorem readAll_eq_peekAll [Inhabited T] (fuel : Nat) :
    ∀ s : RingBufferOf T, WF s → s.Len ≤ fuel → readAll fuel s = s.PeekAll := by
  induction fuel with
  | zero =>
    intro s hwf hf
    have h0 : s.Len = 0 := by omega
    have := (peekAll_eq_nil_iff s hwf).2 ((len_zero_iff s hwf).1 h0)
    rw [this]
    rfl
  | succ n ih =>
    intro s hwf hf
    by_cases h : s.r = s.w
    · rw [readAll_succ_empty n s h, (peekAll_eq_nil_iff s hwf).2 h]
    · rw [readAll_succ_pop n s h]
      obtain ⟨h1, h2, h3, h4⟩ := read_pop s hwf h
      have hlen := congrArg List.length h4
      rw [List.length_cons, peekAll_length s hwf, peekAll_length _ h3] at hlen
      rw [ih _ h3 (by omega)]
      exact h4.symm

theorem writeAll_cons [Inhabited T] (s : RingBufferOf T) (v : T) (vs : List T) :
    writeAll s (v :: vs) =
      ((writeAll (s.Write v).1 vs).1, (s.Write v).2 ++ (writeAll (s.Write v).1 vs).2) :=
  rfl

theorem writeAll_fill [Inhabited T] (vs : List T) :
    ∀ s : RingBufferOf T, WF s →
    (s.maxSize = 0 ∨ s.Len + vs.length ≤ s.maxSize) →
    WF (writeAll s vs).1 ∧
    (writeAll s vs).1.PeekAll = s.PeekAll ++ vs ∧
    (writeAll s vs).2 = [] ∧
    (writeAll s vs).1.maxSize = s.maxSize ∧
    (writeAll s vs).1.discards = s.discards ∧
    (writeAll s vs).1.hasOnDiscards = s.hasOnDiscards ∧
    (writeAll s vs).1.initialSize = s.initialSize ∧
    s.size ≤ (writeAll s vs).1.size := by
  induction vs with
  | nil =>
    intro s hwf _
    exact ⟨hwf, by simp [writeAll], rfl, rfl, rfl, rfl, rfl, Nat.le_refl _⟩
  | cons v vs ih =>
    intro s hwf hok
    have hnd : ¬(0 < s.maxSize ∧ s.maxSize ≤ s.Len) := by
      rcases hok with h | h
      · rw [h]; simp
      · rw [List.length_cons] at h
        intro hc
        omega
    obtain ⟨hlog, hpk, hwf1, hdis, hmax, hinit, hcb, hsz⟩ := write_append s v hwf hnd
    have hlen1 : (s.Write v).1.Len = s.Len + 1 := by
      have := congrArg List.length hpk
      rw [List.length_append, List.length_cons, List.length_nil,
        peekAll_length s hwf, peekAll_length _ hwf1] at this
      omega
    have hok1 : (s.Write v).1.maxSize = 0 ∨
        (s.Write v).1.Len + vs.length ≤ (s.Write v).1.maxSize := by
      rcases hok with h | h
      · exact Or.inl (by rw [hmax, h])
      · rw [List.length_cons] at h
        exact Or.inr (by rw [hmax, hlen1]; omega)
    obtain ⟨ih1, ih2, ih3, ih4, ih5, ih6, ih7, ih8⟩ := ih (s.Write v).1 hwf1 hok1
    rw [writeAll_cons]
    refine ⟨ih1, ?_, ?_, ?_, ?_, ?_, ?_, ?_⟩
    · show (writeAll (s.Write v).1 vs).1.PeekAll = _
      rw [ih2, hpk, List.append_assoc, List.singleton_append]
    · show (s.Write v).2 ++ (writeAll (s.Write v).1 vs).2 = []
      rw [hlog, ih3]
      rfl
    · show (writeAll (s.Write v).1 vs).1.maxSize = _
      rw [ih4, hmax]
    · show (writeAll (s.Write v).1 vs).1.discards = _
      rw [ih5, hdis]
    · show (writeAll (s.Write v).1 vs).1.hasOnDiscards = _
      rw [ih6, hcb]
    · show (writeAll (s.Write v).1 vs).1.initialSize = _
      rw [ih7, hinit]
    · exact Nat.le_trans hsz ih8

theorem write_discard [Inhabited T] (s : RingBufferOf T) (v : T)
    (hd : 0 < s.maxSize ∧ s.maxSize ≤ s.Len) :
    s.Write v = ({ s with discards := s.discards + 1 },
      if s.hasOnDiscards then [v] else []) := by
  unfold Write
  rw [if_pos hd]

theorem writeAll_saturated [Inhabited T] (vs : List T) :
    ∀ s : RingBufferOf T, 0 < s.maxSize → s.maxSize ≤ s.Len →
    (writeAll s vs).1 = { s with discards := s.discards + vs.length } ∧
    (writeAll s vs).2 = (if s.hasOnDiscards then vs else []) := by
  induction vs with
  | nil =>
    intro s h1 h2
    constructor
    · rfl
    · show [] = _
      by_cases h : s.hasOnDiscards <;> simp [h]
  | cons v vs ih =>
    intro s h1 h2
    have hstep := write_discard s v ⟨h1, h2⟩
    have h1' : 0 < ({ s with discards := s.discards + 1 } : RingBufferOf T).maxSize := h1
    have h2' : ({ s with discards := s.discards + 1 } : RingBufferOf T).maxSize ≤
        ({ s with discards := s.discards + 1 } : RingBufferOf T).Len := h2
    obtain ⟨ihs, ihl⟩ := ih _ h1' h2'
    rw [writeAll_cons, hstep]
    constructor
    · show (writeAll { s with discards := s.discards + 1 } vs).1 = _
      rw [ihs]
      show ({ s with discards := s.discards + 1 + vs.length } : RingBufferOf T) = _
      rw [show s.discards + 1 + vs.length = s.discards + (vs.length + 1) by omega]
      rfl
    · show (if s.hasOnDiscards then [v] else []) ++
        (writeAll { s with discards := s.discards + 1 } vs).2 = _
      rw [ihl]
      by_cases h : s.hasOnDiscards <;> simp [h]

theorem writeAll_append [Inhabited T] (xs ys : List T) :
    ∀ s : RingBufferOf T,
    (writeAll s (xs ++ ys)).1 = (writeAll (writeAll s xs).1 ys).1 ∧
    (writeAll s (xs ++ ys)).2 = (writeAll s xs).2 ++ (writeAll (writeAll s xs).1 ys).2 := by
  induction xs with
  | nil =>
    intro s
    exact ⟨rfl, rfl⟩
  | cons x xs ih =>
    intro s
    obtain ⟨ih1, ih2⟩ := ih (s.Write x).1
    rw [List.cons_append, writeAll_cons, writeAll_cons]
    exact ⟨ih1, by rw [List.append_assoc, ← ih2]⟩

theorem rPeekN_zeta (s : RingBufferOf T) (n : Int) :
    s.RPeekN n = if n ≤ 0 then [] else if n ≤ (s.PeekAll.length : Int) then s.PeekAll.drop (s.PeekAll.length - n.toNat) else s.PeekAll :=
  rfl

theorem len_pos_ne (s : RingBufferOf T) (h : 0 < s.Len) : s.r ≠ s.w := by
  intro he
  unfold Len at h
  rw [if_pos he] at h
  omega

theorem overwrite_sat_eq0 [Inhabited T] (s : RingBufferOf T) (v : T)
    (hg : 0 < s.maxSize ∧ s.maxSize ≤ s.Len) :
    s.Overwrite v = (if (if s.w + 1 = s.size then 0 else s.w + 1) = (if s.r + 1 = s.size then 0 else s.r + 1) then ({ s with r := if s.r + 1 = s.size then 0 else s.r + 1, w := if s.w + 1 = s.size then 0 else s.w + 1, buf := s.buf.set s.w v } : RingBufferOf T).grow else { s with r := if s.r + 1 = s.size then 0 else s.r + 1, w := if s.w + 1 = s.size then 0 else s.w + 1, buf := s.buf.set s.w v }) := by
  unfold Overwrite
  rw [if_pos hg]

theorem no_collision (s : RingBufferOf T) (hwf : WF s) (hne : s.r ≠ s.w) :
    ¬((if s.w + 1 = s.size then 0 else s.w + 1) =
      (if s.r + 1 = s.size then 0 else s.r + 1)) := by
  obtain ⟨hb, hr, hw, hi, hs⟩ := hwf
  rcases eq_or_ne (s.w + 1) s.size with h1 | h1 <;>
    rcases eq_or_ne (s.r + 1) s.size with h2 | h2
  · rw [if_pos h1, if_pos h2]
    omega
  · rw [if_pos h1, if_neg h2]
    omega
  · rw [if_neg h1, if_pos h2]
    omega
  · rw [if_neg h1, if_neg h2]
    omega

theorem overwrite_sat [Inhabited T] (s : RingBufferOf T) (v : T) (hwf : WF s)
    (hg : 0 < s.maxSize ∧ s.maxSize ≤ s.Len) :
    s.Overwrite v = { s with r := if s.r + 1 = s.size then 0 else s.r + 1, w := if s.w + 1 = s.size then 0 else s.w + 1, buf := s.buf.set s.w v } := by
  have hne : s.r ≠ s.w := len_pos_ne s (by omega)
  rw [overwrite_sat_eq0 s v hg, if_neg (no_collision s hwf hne)]

theorem wf_write [Inhabited T] (s : RingBufferOf T) (v : T) (hwf : WF s) :
    WF (s.Write v).1 := by
  by_cases h : 0 < s.maxSize ∧ s.maxSize ≤ s.Len
  · rw [write_discard s v h]
    exact ⟨hwf.1, hwf.2.1, hwf.2.2.1, hwf.2.2.2.1, hwf.2.2.2.2⟩
  · exact (write_append s v hwf h).2.2.1

theorem wf_overwrite [Inhabited T] (s : RingBufferOf T) (v : T) (hwf : WF s) :
    WF (s.Overwrite v) := by
  obtain ⟨hb, hr, hw, hi, hs⟩ := hwf
  by_cases h : 0 < s.maxSize ∧ s.maxSize ≤ s.Len
  · rw [overwrite_sat s v ⟨hb, hr, hw, hi, hs⟩ h]
    refine ⟨by simpa using hb, ?_, ?_, hi, hs⟩
    · show (if s.r + 1 = s.size then 0 else s.r + 1) < s.size
      split <;> omega
    · show (if s.w + 1 = s.size then 0 else s.w + 1) < s.size
      split <;> omega
  · rw [overwrite_eq_write s v h]
    exact wf_write s v ⟨hb, hr, hw, hi, hs⟩

theorem wf_read [Inhabited T] (s : RingBufferOf T) (hwf : WF s) :
    WF (s.Read).2.2 := by
  by_cases h : s.r = s.w
  · rw [read_eq_empty s h]
    exact hwf
  · exact (read_pop s hwf h).2.2.1

theorem wf_rread [Inhabited T] (s : RingBufferOf T) (hwf : WF s) :
    WF (s.RRead).2.2 := by
  obtain ⟨hb, hr, hw, hi, hs⟩ := hwf
  unfold RRead
  by_cases h1 : s.r = s.w
  · rw [if_pos h1]
    exact ⟨hb, hr, hw, hi, hs⟩
  · rw [if_neg h1]
    by_cases h2 : s.w = 0
    · rw [if_pos h2]
      exact ⟨hb, hr, by show s.size - 1 < s.size; omega, hi, hs⟩
    · rw [if_neg h2]
      exact ⟨hb, hr, by show s.w - 1 < s.size; omega, hi, hs⟩

theorem wf_reset [Inhabited T] (s : RingBufferOf T) (hwf : WF s) :
    WF s.Reset := by
  obtain ⟨hb, hr, hw, hi, hs⟩ := hwf
  have h2 : 2 ≤ s.initialSize := hi
  refine ⟨by simp [Reset], ?_, ?_, hi, hi⟩
  · show 0 < s.initialSize
    omega
  · show 0 < s.initialSize
    omega

theorem wf_truncate [Inhabited T] (s : RingBufferOf T) (n : Int) (hwf : WF s) :
    WF (s.Truncate n) := by
  obtain ⟨hb, hr, hw, hi, hs⟩ := hwf
  have h2i : 2 ≤ s.initialSize := hi
  have h2s : 2 ≤ s.size := hs
  unfold Truncate
  by_cases h1 : n ≤ 0
  · rw [if_pos h1]
    exact wf_reset s ⟨hb, hr, hw, hi, hs⟩
  · rw [if_neg h1]
    by_cases h2 : (s.Len : Int) ≤ n
    · rw [if_pos h2]
      exact ⟨hb, hr, hw, hi, hs⟩
    · rw [if_neg h2]
      by_cases h3 : n * 2 < (s.size : Int)
      · rw [if_pos h3]
        have hpl : s.PeekAll.length = s.Len := peekAll_length s ⟨hb, hr, hw, hi, hs⟩
        have hdata : (s.RPeekN n).length = n.toNat := by
          rw [rPeekN_zeta, if_neg (by omega), hpl, if_pos (by omega),
            List.length_drop, hpl]
          omega
        refine ⟨?_, ?_, ?_, hi, ?_⟩
        · show ((s.RPeekN n) ++ List.replicate (n.toNat + 1 - (s.RPeekN n).length) (default : T)).length = n.toNat + 1
          rw [List.length_append, List.length_replicate, hdata]
          omega
        · show 0 < n.toNat + 1
          omega
        · show n.toNat < n.toNat + 1
          omega
        · show RingBuffer.minBufferSize ≤ n.toNat + 1
          unfold RingBuffer.minBufferSize
          omega
      · rw [if_neg h3]
        by_cases h4 : s.w > s.r
        · rw [if_pos h4]
          exact ⟨hb, by show s.w - s.r - n.toNat < s.size; omega, hw, hi, hs⟩
        · rw [if_neg h4]
          by_cases h5 : 0 ≤ (s.w : Int) - n
          · rw [if_pos h5]
            exact ⟨hb, by show ((s.w : Int) - n).toNat < s.size; omega, hw, hi, hs⟩
          · rw [if_neg h5]
            exact ⟨hb, by show ((s.size : Int) + ((s.w : Int) - n)).toNat < s.size; omega, hw, hi, hs⟩

theorem wf_setMaxSize [Inhabited T] (s : RingBufferOf T) (n : Int) (hwf : WF s) :
    WF (s.SetMaxSize n).1 := by
  obtain ⟨hb, hr, hw, hi, hs⟩ := hwf
  unfold SetMaxSize
  by_cases h1 : n = 0
  · rw [if_pos h1]
    exact ⟨hb, hr, hw, hi, hs⟩
  · rw [if_neg h1]
    by_cases h2 : (RingBuffer.minBufferSize : Int) ≤ n
    · rw [if_pos h2]
      exact wf_truncate { s with maxSize := n.toNat } n ⟨hb, hr, hw, hi, hs⟩
    · rw [if_neg h2]
      exact ⟨hb, hr, hw, hi, hs⟩

theorem wf_setOnDiscards (s : RingBufferOf T) (b : Bool) (hwf : WF s) :
    WF (s.SetOnDiscards b) := by
  obtain ⟨hb, hr, hw, hi, hs⟩ := hwf
  unfold SetOnDiscards
  by_cases h : b = true
  · rw [if_pos h]
    exact ⟨hb, hr, hw, hi, hs⟩
  · rw [if_neg h]
    exact ⟨hb, hr, hw, hi, hs⟩

theorem write_nogrow_eq [Inhabited T] (s : RingBufferOf T) (v : T)
    (hnd : ¬(0 < s.maxSize ∧ s.maxSize ≤ s.Len))
    (hcol : ¬((if s.w + 1 = s.size then 0 else s.w + 1) = s.r)) :
    (s.Write v).1 = { s with buf := s.buf.set s.w v, w := if s.w + 1 = s.size then 0 else s.w + 1 } := by
  rw [write_eq s v hnd]
  show (if (if s.w + 1 = s.size then 0 else s.w + 1) = s.r then ({ s with buf := s.buf.set s.w v, w := if s.w + 1 = s.size then 0 else s.w + 1 } : RingBufferOf T).grow else { s with buf := s.buf.set s.w v, w := if s.w + 1 = s.size then 0 else s.w + 1 }) = _
  rw [if_neg hcol]

theorem overwrite_sat_peekAll [Inhabited T] (s : RingBufferOf T) (v : T)
    (hwf : WF s) (hg : 0 < s.maxSize) (hsat : s.maxSize = s.Len) :
    WF (s.Overwrite v) ∧
    (s.Overwrite v).PeekAll = s.PeekAll.drop 1 ++ [v] ∧
    (s.Overwrite v).maxSize = s.maxSize ∧
    (s.Overwrite v).discards = s.discards ∧
    (s.Overwrite v).hasOnDiscards = s.hasOnDiscards ∧
    (s.Overwrite v).size = s.size ∧
    (s.Overwrite v).initialSize = s.initialSize := by
  have hne : s.r ≠ s.w := len_pos_ne s (by omega)
  obtain ⟨e1, e2, e3, e4⟩ := read_pop s hwf hne
  rw [e2] at e3 e4
  have hsplen :
      Len ({ s with r := if s.r + 1 = s.size then 0 else s.r + 1 } : RingBufferOf T) + 1 = s.Len := by
    have h4 := congrArg List.length e4
    rw [List.length_cons, peekAll_length s hwf, peekAll_length _ e3] at h4
    omega
  have hnd : ¬(0 < ({ s with r := if s.r + 1 = s.size then 0 else s.r + 1 } : RingBufferOf T).maxSize ∧ ({ s with r := if s.r + 1 = s.size then 0 else s.r + 1 } : RingBufferOf T).maxSize ≤ ({ s with r := if s.r + 1 = s.size then 0 else s.r + 1 } : RingBufferOf T).Len) := by
    show ¬(0 < s.maxSize ∧ s.maxSize ≤ Len ({ s with r := if s.r + 1 = s.size then 0 else s.r + 1 } : RingBufferOf T))
    omega
  obtain ⟨w1, w2, w3, w4, w5, w6, w7, w8⟩ := write_append _ v e3 hnd
  have hcolsp : ¬((if ({ s with r := if s.r + 1 = s.size then 0 else s.r + 1 } : RingBufferOf T).w + 1 = ({ s with r := if s.r + 1 = s.size then 0 else s.r + 1 } : RingBufferOf T).size then 0 else ({ s with r := if s.r + 1 = s.size then 0 else s.r + 1 } : RingBufferOf T).w + 1) = ({ s with r := if s.r + 1 = s.size then 0 else s.r + 1 } : RingBufferOf T).r) :=
    no_collision s hwf hne
  have hwr := write_nogrow_eq ({ s with r := if s.r + 1 = s.size then 0 else s.r + 1 } : RingBufferOf T) v hnd hcolsp
  have how : s.Overwrite v = (Write ({ s with r := if s.r + 1 = s.size then 0 else s.r + 1 } : RingBufferOf T) v).1 := by
    rw [overwrite_sat s v hwf (by constructor <;> omega), hwr]
  rw [how]
  refine ⟨w3, ?_, ?_, ?_, ?_, ?_, ?_⟩
  · rw [w2, e4]
    simp
  · rw [w5]
  · rw [w4]
  · rw [w7]
  · rw [hwr]
  · rw [w6]

end RingBufferOf

/-- Step equation for `overwriteAll`. -/
theorem overwriteAll_cons [Inhabited T] (s : RingBuffer.RingBufferOf T) (v : T)
    (vs : List T) : overwriteAll s (v :: vs) = overwriteAll (s.Overwrite v) vs :=
  rfl

theorem overwriteAll_lastN [Inhabited T] (vs : List T) :
    ∀ s : RingBuffer.RingBufferOf T, WF s → 0 < s.maxSize → s.Len ≤ s.maxSize →
    WF (overwriteAll s vs) ∧
    (overwriteAll s vs).maxSize = s.maxSize ∧
    (overwriteAll s vs).Len ≤ s.maxSize ∧
    (overwriteAll s vs).PeekAll = lastN s.maxSize (s.PeekAll ++ vs) := by
  induction vs with
  | nil =>
    intro s hwf h1 h2
    refine ⟨hwf, rfl, h2, ?_⟩
    rw [List.append_nil,
      RingBufferOf.lastN_of_length_le _ _ (by rw [RingBufferOf.peekAll_length s hwf]; omega)]
    rfl
  | cons v vs ih =>
    intro s hwf h1 h2
    rw [overwriteAll_cons]
    rcases Nat.lt_or_ge s.Len s.maxSize with hlt | hge
    · have hnd : ¬(0 < s.maxSize ∧ s.maxSize ≤ s.Len) := by omega
      have heq := RingBufferOf.overwrite_eq_write s v hnd
      obtain ⟨p1, p2, p3, p4, p5, p6, p7, p8⟩ :=
        RingBufferOf.write_append s v hwf hnd
      have hlen1 : (s.Write v).1.Len = s.Len + 1 := by
        have hl := congrArg List.length p2
        rw [List.length_append, List.length_cons, List.length_nil,
          RingBufferOf.peekAll_length s hwf,
          RingBufferOf.peekAll_length _ p3] at hl
        omega
      rw [heq]
      obtain ⟨ih1, ih2, ih3, ih4⟩ := ih (s.Write v).1 p3
        (by rw [p5]; exact h1) (by rw [p5, hlen1]; omega)
      refine ⟨ih1, by rw [ih2, p5], by rw [p5] at ih3; exact ih3, ?_⟩
      rw [ih4, p5, p2, List.append_assoc, List.singleton_append]
    · have hsat : s.maxSize = s.Len := by omega
      obtain ⟨q1, q2, q3, q4, q5, q6, q7⟩ :=
        RingBufferOf.overwrite_sat_peekAll s v hwf h1 hsat
      have hplen : s.PeekAll.length = s.maxSize := by
        rw [RingBufferOf.peekAll_length s hwf]
        omega
      have hlenX : (s.Overwrite v).Len = s.maxSize := by
        rw [← RingBufferOf.peekAll_length _ q1, q2, List.length_append,
          List.length_drop, hplen]
        simp
        omega
      obtain ⟨ih1, ih2, ih3, ih4⟩ := ih (s.Overwrite v) q1
        (by rw [q3]; exact h1) (by rw [q3, hlenX])
      refine ⟨ih1, by rw [ih2, q3], by rw [q3] at ih3; exact ih3, ?_⟩
      rw [ih4, q3, q2]
      obtain ⟨h0, t, hP⟩ : ∃ h0 t, s.PeekAll = h0 :: t := by
        rcases hpa : s.PeekAll with _ | ⟨h0, t⟩
        · rw [hpa] at hplen
          simp at hplen
          omega
        · exact ⟨h0, t, rfl⟩
      rw [hP]
      have htlen : t.length + 1 = s.maxSize := by
        rw [hP] at hplen
        simpa using hplen
      rw [List.cons_append, RingBufferOf.lastN_cons _ _ _ (by
        rw [List.length_append, List.length_cons]
        omega)]
      simp [List.append_assoc]

theorem wf_newOf (T : Type) [Inhabited T] (i : Int) (ms : List Int) :
    WF (NewOf T i ms) := by
  refine ⟨?_, ?_, ?_, ?_, ?_⟩ <;>
    simp only [NewOf, minBufferSize, List.length_replicate] <;>
    first
      | rfl
      | (split <;> omega)

theorem wf_applyOp [Inhabited T] (s : RingBuffer.RingBufferOf T) (op : Op T)
    (hwf : WF s) : WF (applyOp s op) := by
  cases op with
  | write v => exact RingBufferOf.wf_write s v hwf
  | overwrite v => exact RingBufferOf.wf_overwrite s v hwf
  | read => exact RingBufferOf.wf_read s hwf
  | rread => exact RingBufferOf.wf_rread s hwf
  | truncate n => exact RingBufferOf.wf_truncate s n hwf
  | reset => exact RingBufferOf.wf_reset s hwf
  | setMaxSize n => exact RingBufferOf.wf_setMaxSize s n hwf
  | setOnDiscards b => exact RingBufferOf.wf_setOnDiscards s b hwf

theorem wf_runOps [Inhabited T] (ops : List (Op T)) :
    ∀ s : RingBuffer.RingBufferOf T, WF s → WF (runOps s ops) := by
  induction ops with
  | nil => exact fun s h => h
  | cons op ops ih => exact fun s h => ih _ (wf_applyOp s op h)

theorem wf_reachable [Inhabited T] (s : RingBuffer.RingBufferOf T)
    (h : Reachable s) : WF s := by
  obtain ⟨i, ms, ops, rfl⟩ := h
  exact wf_runOps ops _ (wf_newOf T i ms)

/-- C10: on an unbounded buffer (`maxSize = 0`), `Overwrite v` and `Write v`
produce identical resulting states (same stored elements, cursors, capacity
and discard counter), and the `Write` invokes no discard callback (the
embedded `Overwrite` never invokes it by construction, as in the source). -/
theorem c10_unbounded_overwrite_eq_write {T : Type} [Inhabited T]
    (s : RingBuffer.RingBufferOf T) (v : T) (h : s.maxSize = 0) :
    s.Overwrite v = (s.Write v).1 ∧ (s.Write v).2 = [] := by
  have hnd : ¬(0 < s.maxSize ∧ s.maxSize ≤ s.Len) := by
    rw [h]
    simp
  refine ⟨RingBufferOf.overwrite_eq_write s v hnd, ?_⟩
  rw [RingBufferOf.write_eq s v hnd]

theorem c10_witness :
    (RingBuffer.NewOf Nat 2 []).maxSize = 0 ∧
    ((RingBuffer.NewOf Nat 2 []).Overwrite 7 =
        ((RingBuffer.NewOf Nat 2 []).Write 7).1 ∧
      ((RingBuffer.NewOf Nat 2 []).Write 7).2 = []) :=
  ⟨by decide, c10_unbounded_overwrite_eq_write (RingBuffer.NewOf Nat 2 []) 7 (by decide)⟩

/-- C8 counterexample: `NewFixedOf(1)` does not have `max_size = 1`; because
`1` is below the floor `minBufferSize = 2`, the variadic argument is rejected
and the buffer is unbounded (`max_size = 0`). -/
theorem c8_newFixedOf_counterexample :
    (RingBuffer.NewFixedOf Nat 1).maxSize = 0 ∧
    ¬(RingBuffer.NewFixedOf Nat 1).maxSize = 1 := by
  decide

/-- C8 (amended): `NewOf(initial_size, m)` creates an empty buffer whose
capacity is `initial_size` clamped up to the floor 2, with `max_size = m`
when `m ≥ 2` and `max_size = 0` otherwise; `NewFixedOf(initial_size)` has
`max_size = initial_size` when `initial_size ≥ 2` and `max_size = 0`
otherwise (not unconditionally `initial_size` as the claim stated). -/
theorem c8_construction_amended {T : Type} [Inhabited T] (i m : Int)
    (rest : List Int) :
    (RingBuffer.NewOf T i (m :: rest)).size = (if i < 2 then 2 else i.toNat) ∧
    (RingBuffer.NewOf T i (m :: rest)).maxSize = (if 2 ≤ m then m.toNat else 0) ∧
    (RingBuffer.NewOf T i (m :: rest)).Len = 0 ∧
    (RingBuffer.NewOf T i (m :: rest)).IsEmpty = true ∧
    (RingBuffer.NewOf T i []).maxSize = 0 ∧
    (RingBuffer.NewFixedOf T i).maxSize = (if 2 ≤ i then i.toNat else 0) ∧
    (RingBuffer.NewFixedOf T i).size = (if i < 2 then 2 else i.toNat) ∧
    (RingBuffer.NewFixedOf T i).Len = 0 := by
  refine ⟨?_, ?_, ?_, ?_, ?_, ?_, ?_, ?_⟩ <;>
    simp [NewOf, NewFixedOf, minBufferSize, RingBufferOf.Len, RingBufferOf.IsEmpty]

/-- C6: each of `Read`, `RRead`, `Peek`, `RPeek` fails with `ErrIsEmpty`
(returning the element type's zero value, and leaving the state unchanged)
exactly when the buffer is empty (`Len = 0`, equivalently `r = w`); when the
buffer is non-empty none of them fails. -/
theorem c6_empty_read_errors {T : Type} [Inhabited T]
    (s : RingBuffer.RingBufferOf T) (hwf : WF s) :
    (s.Len = 0 ↔ s.r = s.w) ∧
    (s.Len = 0 →
      s.Read = ((default : T), some RingBuffer.GoErr.ErrIsEmpty, s) ∧
      s.RRead = ((default : T), some RingBuffer.GoErr.ErrIsEmpty, s) ∧
      s.Peek = ((default : T), some RingBuffer.GoErr.ErrIsEmpty) ∧
      s.RPeek = ((default : T), some RingBuffer.GoErr.ErrIsEmpty)) ∧
    (s.Len ≠ 0 →
      (s.Read).2.1 = none ∧ (s.RRead).2.1 = none ∧
      (s.Peek).2 = none ∧ (s.RPeek).2 = none) := by
  have hiff := RingBufferOf.len_zero_iff s hwf
  refine ⟨hiff, ?_, ?_⟩
  · intro h0
    have he : s.r = s.w := hiff.1 h0
    refine ⟨RingBufferOf.read_eq_empty s he, ?_, ?_, ?_⟩
    · unfold RingBufferOf.RRead
      rw [if_pos he]
    · unfold RingBufferOf.Peek
      rw [if_pos he]
    · unfold RingBufferOf.RPeek
      rw [if_pos he]
  · intro h0
    have hne : s.r ≠ s.w := fun he => h0 (hiff.2 he)
    refine ⟨?_, ?_, ?_, ?_⟩
    · rw [RingBufferOf.read_eq s hne]
    · unfold RingBufferOf.RRead
      rw [if_neg hne]
      split <;> rfl
    · unfold RingBufferOf.Peek
      rw [if_neg hne]
    · unfold RingBufferOf.RPeek
      rw [if_neg hne]
      split <;> rfl

theorem c6_witness :
    (WF (RingBuffer.NewOf Nat 3 []) ∧
      ((RingBuffer.NewOf Nat 3 []).Len = 0 ↔
        (RingBuffer.NewOf Nat 3 []).r = (RingBuffer.NewOf Nat 3 []).w) ∧
      ((RingBuffer.NewOf Nat 3 []).Len = 0 →
        (RingBuffer.NewOf Nat 3 []).Read =
          ((default : Nat), some RingBuffer.GoErr.ErrIsEmpty, RingBuffer.NewOf Nat 3 []) ∧
        (RingBuffer.NewOf Nat 3 []).RRead =
          ((default : Nat), some RingBuffer.GoErr.ErrIsEmpty, RingBuffer.NewOf Nat 3 []) ∧
        (RingBuffer.NewOf Nat 3 []).Peek =
          ((default : Nat), some RingBuffer.GoErr.ErrIsEmpty) ∧
        (RingBuffer.NewOf Nat 3 []).RPeek =
          ((default : Nat), some RingBuffer.GoErr.ErrIsEmpty)) ∧
      ((RingBuffer.NewOf Nat 3 []).Len ≠ 0 →
        ((RingBuffer.NewOf Nat 3 []).Read).2.1 = none ∧
        ((RingBuffer.NewOf Nat 3 []).RRead).2.1 = none ∧
        ((RingBuffer.NewOf Nat 3 []).Peek).2 = none ∧
        ((RingBuffer.NewOf Nat 3 []).RPeek).2 = none)) :=
  ⟨by decide, c6_empty_read_errors (RingBuffer.NewOf Nat 3 []) (by decide)⟩

/-- C9: `grow` computes the new capacity as exactly `capacity * 2` when the
old capacity is below 1024 and `capacity + capacity / 4` otherwise; and
`Write`/`Overwrite` change the capacity only when, after advancing, the
write cursor would equal the (possibly advanced) read cursor, in which case
the new capacity follows the same schedule. -/
theorem c9_growth_schedule {T : Type} [Inhabited T]
    (s : RingBuffer.RingBufferOf T) (v : T) (hwf : WF s) :
    s.grow.size = (if s.size < 1024 then s.size * 2 else s.size + s.size / 4) ∧
    ((s.Write v).1.size ≠ s.size →
      ¬(0 < s.maxSize ∧ s.maxSize ≤ s.Len) ∧
      (if s.w + 1 = s.size then 0 else s.w + 1) = s.r ∧
      (s.Write v).1.size =
        (if s.size < 1024 then s.size * 2 else s.size + s.size / 4)) ∧
    ((s.Overwrite v).size ≠ s.size →
      ¬(0 < s.maxSize ∧ s.maxSize ≤ s.Len) ∧
      (if s.w + 1 = s.size then 0 else s.w + 1) = s.r ∧
      (s.Overwrite v).size =
        (if s.size < 1024 then s.size * 2 else s.size + s.size / 4)) := by
  have hwrite : (s.Write v).1.size ≠ s.size →
      ¬(0 < s.maxSize ∧ s.maxSize ≤ s.Len) ∧
      (if s.w + 1 = s.size then 0 else s.w + 1) = s.r ∧
      (s.Write v).1.size =
        (if s.size < 1024 then s.size * 2 else s.size + s.size / 4) := by
    intro hch
    by_cases hnd : 0 < s.maxSize ∧ s.maxSize ≤ s.Len
    · rw [RingBufferOf.write_discard s v hnd] at hch
      exact absurd rfl hch
    · by_cases hcol : (if s.w + 1 = s.size then 0 else s.w + 1) = s.r
      · refine ⟨hnd, hcol, ?_⟩
        rw [RingBufferOf.write_eq s v hnd, if_pos hcol]
        rfl
      · rw [RingBufferOf.write_nogrow_eq s v hnd hcol] at hch
        exact absurd rfl hch
  refine ⟨rfl, hwrite, ?_⟩
  intro hch
  by_cases hg : 0 < s.maxSize ∧ s.maxSize ≤ s.Len
  · rw [RingBufferOf.overwrite_sat s v hwf hg] at hch
    exact absurd rfl hch
  · rw [RingBufferOf.overwrite_eq_write s v hg] at hch ⊢
    exact hwrite hch

theorem c9_witness :
    WF (RingBuffer.NewOf Nat 2 []) ∧
    ((RingBuffer.NewOf Nat 2 []).grow.size =
      (if (RingBuffer.NewOf Nat 2 []).size < 1024
        then (RingBuffer.NewOf Nat 2 []).size * 2
        else (RingBuffer.NewOf Nat 2 []).size + (RingBuffer.NewOf Nat 2 []).size / 4)) :=
  ⟨by decide, (c9_growth_schedule (RingBuffer.NewOf Nat 2 []) 0 (by decide)).1⟩

/-- C2: on any well-formed empty unbounded buffer of capacity `c`, writing a
sequence of `c + 1` values and then repeatedly calling `Read` until it
fails yields exactly the written sequence in order, and the capacity after
the writes is strictly greater than `c`. -/
theorem c2_growth_preserves_data {T : Type} [Inhabited T]
    (s : RingBuffer.RingBufferOf T) (vs : List T) (hwf : WF s)
    (hunb : s.maxSize = 0) (hempty : s.r = s.w)
    (hcount : vs.length = s.size + 1) :
    (∀ fuel, (writeAll s vs).1.Len ≤ fuel →
      readAll fuel (writeAll s vs).1 = vs) ∧
    s.size < (writeAll s vs).1.size := by
  obtain ⟨f1, f2, f3, f4, f5, f6, f7, f8⟩ := RingBufferOf.writeAll_fill vs s hwf (Or.inl hunb)
  have hpk0 : s.PeekAll = [] := (RingBufferOf.peekAll_eq_nil_iff s hwf).2 hempty
  have hpk : (writeAll s vs).1.PeekAll = vs := by
    rw [f2, hpk0, List.nil_append]
  have hlen : (writeAll s vs).1.Len = vs.length := by
    rw [← RingBufferOf.peekAll_length _ f1, hpk]
  constructor
  · intro fuel hf
    rw [RingBufferOf.readAll_eq_peekAll fuel _ f1 hf, hpk]
  · have hlt := RingBufferOf.len_lt_size _ f1
    omega

theorem c2_witness :
    (WF (RingBuffer.NewOf Nat 2 []) ∧ (RingBuffer.NewOf Nat 2 []).maxSize = 0 ∧
      (RingBuffer.NewOf Nat 2 []).r = (RingBuffer.NewOf Nat 2 []).w ∧
      ([1, 2, 3] : List Nat).length = (RingBuffer.NewOf Nat 2 []).size + 1) ∧
    readAll (writeAll (RingBuffer.NewOf Nat 2 []) [1, 2, 3]).1.Len
        (writeAll (RingBuffer.NewOf Nat 2 []) [1, 2, 3]).1 = [1, 2, 3] ∧
    (RingBuffer.NewOf Nat 2 []).size <
      (writeAll (RingBuffer.NewOf Nat 2 []) [1, 2, 3]).1.size :=
  ⟨⟨by decide, by decide, by decide, by decide⟩,
    (c2_growth_preserves_data (RingBuffer.NewOf Nat 2 []) [1, 2, 3]
        (by decide) (by decide) (by decide) (by decide)).1
      (writeAll (RingBuffer.NewOf Nat 2 []) [1, 2, 3]).1.Len (Nat.le_refl _),
    (c2_growth_preserves_data (RingBuffer.NewOf Nat 2 []) [1, 2, 3]
        (by decide) (by decide) (by decide) (by decide)).2⟩

/-- C3: starting from a well-formed empty buffer with `maxSize = m ≥ 2` and a
callback installed, writing `m + k` values (`k > 0`) leaves `Len = m`,
increases the discard counter by exactly `k`, and invokes the callback
exactly with the `k` rejected values (the last `k` written) in order;
moreover every discarding `Write` leaves the stored elements, both cursors
and the capacity unchanged, incrementing only the discard counter. -/
theorem c3_bounded_discard {T : Type} [Inhabited T]
    (s : RingBuffer.RingBufferOf T) (m k : Nat) (vs : List T) (hwf : WF s)
    (hm : s.maxSize = m) (hm2 : 2 ≤ m) (hcb : s.hasOnDiscards = true)
    (hempty : s.r = s.w) (hcount : vs.length = m + k) (hk : 0 < k) :
    ((writeAll s vs).1.Len = m ∧
      (writeAll s vs).1.discards = s.discards + k ∧
      (writeAll s vs).2 = vs.drop m) ∧
    (∀ (s2 : RingBuffer.RingBufferOf T) (v2 : T),
      0 < s2.maxSize → s2.maxSize ≤ s2.Len →
      (s2.Write v2).1.buf = s2.buf ∧ (s2.Write v2).1.r = s2.r ∧
      (s2.Write v2).1.w = s2.w ∧ (s2.Write v2).1.size = s2.size ∧
      (s2.Write v2).1.maxSize = s2.maxSize ∧
      (s2.Write v2).1.discards = s2.discards + 1 ∧
      (s2.Write v2).2 = (if s2.hasOnDiscards then [v2] else [])) := by
  constructor
  · have hlen0 : s.Len = 0 := (RingBufferOf.len_zero_iff s hwf).2 hempty
    have htk : (vs.take m).length = m := by
      rw [List.length_take]
      omega
    have hsplit : vs.take m ++ vs.drop m = vs := List.take_append_drop m vs
    have e0 : writeAll s vs = writeAll s (vs.take m ++ vs.drop m) := by
      rw [hsplit]
    obtain ⟨ha1, ha2⟩ := RingBufferOf.writeAll_append (vs.take m) (vs.drop m) s
    obtain ⟨f1, f2, f3, f4, f5, f6, f7, f8⟩ :=
      RingBufferOf.writeAll_fill (vs.take m) s hwf (Or.inr (by omega))
    have hs1len : (writeAll s (vs.take m)).1.Len = m := by
      rw [← RingBufferOf.peekAll_length _ f1, f2,
        (RingBufferOf.peekAll_eq_nil_iff s hwf).2 hempty, List.nil_append, htk]
    obtain ⟨g1, g2⟩ := RingBufferOf.writeAll_saturated (vs.drop m) (writeAll s (vs.take m)).1
      (by rw [f4, hm]; omega) (by rw [f4, hm, hs1len])
    refine ⟨?_, ?_, ?_⟩
    · rw [e0, ha1, g1]
      exact hs1len
    · rw [e0, ha1, g1]
      show (writeAll s (vs.take m)).1.discards + (vs.drop m).length = _
      rw [f5, List.length_drop]
      omega
    · rw [e0, ha2, g2, f3, f6, hcb]
      rw [if_pos rfl, List.nil_append]
  · intro s2 v2 h1 h2
    rw [RingBufferOf.write_discard s2 v2 ⟨h1, h2⟩]
    exact ⟨rfl, rfl, rfl, rfl, rfl, rfl, rfl⟩

theorem c3_witness :
    ((writeAll ((RingBuffer.NewOf Nat 2 [2]).SetOnDiscards true) [5, 6, 7]).1.Len = 2 ∧
      (writeAll ((RingBuffer.NewOf Nat 2 [2]).SetOnDiscards true) [5, 6, 7]).1.discards =
        ((RingBuffer.NewOf Nat 2 [2]).SetOnDiscards true).discards + 1 ∧
      (writeAll ((RingBuffer.NewOf Nat 2 [2]).SetOnDiscards true) [5, 6, 7]).2 =
        ([5, 6, 7] : List Nat).drop 2) :=
  (c3_bounded_discard ((RingBuffer.NewOf Nat 2 [2]).SetOnDiscards true) 2 1 [5, 6, 7]
      (by decide) (by decide) (by decide) (by decide) (by decide) (by decide)
      (by decide)).1

/-- C4: (a) when `maxSize > 0` and `Len ≥ maxSize`, `Overwrite v` advances the
read cursor with wraparound, stores `v` at the write cursor and advances it
with wraparound, without changing the discard counter (and the embedded
`Overwrite` invokes no callback by construction, as in the source);
(b) overwriting `m + k` values into a well-formed empty buffer with
`maxSize = m > 0` leaves exactly the last `m` values, oldest-first via
`PeekAll`, with `Len = m`. -/
theorem c4_overwrite_semantics {T : Type} [Inhabited T] :
    (∀ (s : RingBuffer.RingBufferOf T) (v : T), WF s →
      0 < s.maxSize → s.maxSize ≤ s.Len →
      s.Overwrite v = { s with r := if s.r + 1 = s.size then 0 else s.r + 1, w := if s.w + 1 = s.size then 0 else s.w + 1, buf := s.buf.set s.w v } ∧
      (s.Overwrite v).discards = s.discards) ∧
    (∀ (s : RingBuffer.RingBufferOf T) (m k : Nat) (vs : List T), WF s →
      s.maxSize = m → 0 < m → s.r = s.w → vs.length = m + k →
      (overwriteAll s vs).PeekAll = vs.drop k ∧
      (overwriteAll s vs).Len = m) := by
  constructor
  · intro s v hwf h1 h2
    refine ⟨RingBufferOf.overwrite_sat s v hwf ⟨h1, h2⟩, ?_⟩
    rw [RingBufferOf.overwrite_sat s v hwf ⟨h1, h2⟩]
  · intro s m k vs hwf hm hmpos hempty hcount
    have hlen0 : s.Len = 0 := (RingBufferOf.len_zero_iff s hwf).2 hempty
    obtain ⟨o1, o2, o3, o4⟩ := overwriteAll_lastN vs s hwf (by omega) (by omega)
    have hpk : (overwriteAll s vs).PeekAll = vs.drop k := by
      rw [o4, (RingBufferOf.peekAll_eq_nil_iff s hwf).2 hempty, List.nil_append]
      unfold RingBuffer.lastN
      rw [hcount, hm]
      congr 1
      omega
    refine ⟨hpk, ?_⟩
    rw [← RingBufferOf.peekAll_length _ o1, hpk, List.length_drop]
    omega

theorem c4_witness :
    ((writeAll (RingBuffer.NewOf Nat 2 [2]) [1, 2]).1.Overwrite 9 =
        { (writeAll (RingBuffer.NewOf Nat 2 [2]) [1, 2]).1 with r := if (writeAll (RingBuffer.NewOf Nat 2 [2]) [1, 2]).1.r + 1 = (writeAll (RingBuffer.NewOf Nat 2 [2]) [1, 2]).1.size then 0 else (writeAll (RingBuffer.NewOf Nat 2 [2]) [1, 2]).1.r + 1, w := if (writeAll (RingBuffer.NewOf Nat 2 [2]) [1, 2]).1.w + 1 = (writeAll (RingBuffer.NewOf Nat 2 [2]) [1, 2]).1.size then 0 else (writeAll (RingBuffer.NewOf Nat 2 [2]) [1, 2]).1.w + 1, buf := (writeAll (RingBuffer.NewOf Nat 2 [2]) [1, 2]).1.buf.set (writeAll (RingBuffer.NewOf Nat 2 [2]) [1, 2]).1.w 9 } ∧
      ((writeAll (RingBuffer.NewOf Nat 2 [2]) [1, 2]).1.Overwrite 9).discards =
        (writeAll (RingBuffer.NewOf Nat 2 [2]) [1, 2]).1.discards) ∧
    ((overwriteAll (RingBuffer.NewOf Nat 2 [2]) [1, 2, 3]).PeekAll = [2, 3] ∧
      (overwriteAll (RingBuffer.NewOf Nat 2 [2]) [1, 2, 3]).Len = 2) :=
  ⟨(@c4_overwrite_semantics Nat _).1 (writeAll (RingBuffer.NewOf Nat 2 [2]) [1, 2]).1 9
      (by decide) (by decide) (by decide),
    (@c4_overwrite_semantics Nat _).2 (RingBuffer.NewOf Nat 2 [2]) 2 1 [1, 2, 3]
      (by decide) (by decide) (by decide) (by decide) (by decide)⟩

/-- C7: in every reachable state, both cursors lie in `[0, capacity)`,
`Len` equals `(w - r + capacity) mod capacity`, `capacity ≥ Len + 1`, and
the cursors are equal exactly when the buffer is logically empty. -/
theorem c7_cursor_capacity_invariant {T : Type} [Inhabited T]
    (s : RingBuffer.RingBufferOf T) (h : Reachable s) :
    s.r < s.size ∧ s.w < s.size ∧
    s.Len = (s.w + s.size - s.r) % s.size ∧
    s.Len + 1 ≤ s.size ∧
    (s.r = s.w ↔ s.Len = 0) := by
  obtain ⟨hb, hr, hw, hi, hs⟩ := wf_reachable s h
  refine ⟨hr, hw, ?_, ?_, ?_⟩
  · unfold RingBufferOf.Len
    split
    · rename_i heq
      rw [heq, show s.w + s.size - s.w = s.size by omega, Nat.mod_self]
    · split
      · rename_i hne hgt
        rw [show s.w + s.size - s.r = (s.w - s.r) + s.size by omega,
          Nat.add_mod_right, Nat.mod_eq_of_lt (by omega)]
      · rename_i hne hng
        rw [Nat.mod_eq_of_lt (by omega)]
        omega
  · have := RingBufferOf.len_lt_size s ⟨hb, hr, hw, hi, hs⟩
    omega
  · exact (RingBufferOf.len_zero_iff s ⟨hb, hr, hw, hi, hs⟩).symm

theorem c7_witness :
    Reachable (RingBuffer.NewOf Nat 5 []) ∧
    ((RingBuffer.NewOf Nat 5 []).r < (RingBuffer.NewOf Nat 5 []).size ∧
      (RingBuffer.NewOf Nat 5 []).w < (RingBuffer.NewOf Nat 5 []).size ∧
      (RingBuffer.NewOf Nat 5 []).Len =
        ((RingBuffer.NewOf Nat 5 []).w + (RingBuffer.NewOf Nat 5 []).size -
            (RingBuffer.NewOf Nat 5 []).r) % (RingBuffer.NewOf Nat 5 []).size ∧
      (RingBuffer.NewOf Nat 5 []).Len + 1 ≤ (RingBuffer.NewOf Nat 5 []).size ∧
      ((RingBuffer.NewOf Nat 5 []).r = (RingBuffer.NewOf Nat 5 []).w ↔
        (RingBuffer.NewOf Nat 5 []).Len = 0)) :=
  ⟨⟨5, [], [], rfl⟩, c7_cursor_capacity_invariant (RingBuffer.NewOf Nat 5 []) ⟨5, [], [], rfl⟩⟩

/-- C1 (code bug): on the reachable state obtained by writing the values
1..5 into a fresh unbounded buffer of capacity 6 and then reading once
(so `r = 1`, `w = 5`, `size = 6`, `Len = 4`), `Truncate 3` takes the
in-place non-wrapped branch and computes `r := w - r - n = 1`, leaving the
whole state unchanged: afterwards `Len` is still 4 and `PeekAll` is
`[2, 3, 4, 5]` rather than the last three elements `[3, 4, 5]`. -/
theorem c1_truncate_inplace_bug :
    Reachable (runOps (RingBuffer.NewOf Nat 6 [])
      [Op.write 1, Op.write 2, Op.write 3, Op.write 4, Op.write 5, Op.read]) ∧
    ((runOps (RingBuffer.NewOf Nat 6 [])
        [Op.write 1, Op.write 2, Op.write 3, Op.write 4, Op.write 5, Op.read]).Len = 4 ∧
      (runOps (RingBuffer.NewOf Nat 6 [])
        [Op.write 1, Op.write 2, Op.write 3, Op.write 4, Op.write 5, Op.read]).RPeekN 3 =
        [3, 4, 5] ∧
      ((runOps (RingBuffer.NewOf Nat 6 [])
          [Op.write 1, Op.write 2, Op.write 3, Op.write 4, Op.write 5, Op.read]).Truncate 3) =
        runOps (RingBuffer.NewOf Nat 6 [])
          [Op.write 1, Op.write 2, Op.write 3, Op.write 4, Op.write 5, Op.read] ∧
      ((runOps (RingBuffer.NewOf Nat 6 [])
          [Op.write 1, Op.write 2, Op.write 3, Op.write 4, Op.write 5, Op.read]).Truncate 3).Len = 4 ∧
      ((runOps (RingBuffer.NewOf Nat 6 [])
          [Op.write 1, Op.write 2, Op.write 3, Op.write 4, Op.write 5, Op.read]).Truncate 3).PeekAll =
        [2, 3, 4, 5]) :=
  ⟨⟨6, [], [Op.write 1, Op.write 2, Op.write 3, Op.write 4, Op.write 5, Op.read], rfl⟩,
    by decide⟩

/-- C5 (code bug, inherited from the `Truncate` slip shown in the C1
theorem): on the same reachable state (`r = 1`, `w = 5`, `size = 6`,
`Len = 4`), `SetMaxSize 3` stores `max_size = 3` and returns 3, but the
`Truncate 3` it performs is a no-op, so `Len = 4 > 3` on return —
the claimed postcondition `Len ≤ n` fails. -/
theorem c5_setMaxSize_truncate_bug :
    Reachable (runOps (RingBuffer.NewOf Nat 6 [])
      [Op.write 1, Op.write 2, Op.write 3, Op.write 4, Op.write 5, Op.read]) ∧
    (((runOps (RingBuffer.NewOf Nat 6 [])
        [Op.write 1, Op.write 2, Op.write 3, Op.write 4, Op.write 5, Op.read]).SetMaxSize 3).2 = 3 ∧
      ((runOps (RingBuffer.NewOf Nat 6 [])
        [Op.write 1, Op.write 2, Op.write 3, Op.write 4, Op.write 5, Op.read]).SetMaxSize 3).1.maxSize = 3 ∧
      ((runOps (RingBuffer.NewOf Nat 6 [])
        [Op.write 1, Op.write 2, Op.write 3, Op.write 4, Op.write 5, Op.read]).SetMaxSize 3).1.Len = 4 ∧
      ¬(((runOps (RingBuffer.NewOf Nat 6 [])
        [Op.write 1, Op.write 2, Op.write 3, Op.write 4, Op.write 5, Op.read]).SetMaxSize 3).1.Len ≤ 3)) :=
  ⟨⟨6, [], [Op.write 1, Op.write 2, Op.write 3, Op.write 4, Op.write 5, Op.read], rfl⟩,
    by decide⟩

end RingBuffer
